import Mathlib


/-!
Verification of `src/experiments/intrinsic_naive.py` (IntelliSMT naive baseline).

The script evaluates a naive baseline for constraint minimisation: for each
benchmark instance it repeatedly samples a random subset of the instance's
clauses, asks an external SMT solver (cvc5) whether the subset is
unsatisfiable, and aggregates statistics (success counts and reduction
ratios) into buckets keyed by the size of the input formula.

All interaction with the external solver (formula building, parsing,
`checkSat`, `getUnsatCore`, statistics) is modelled by abstract oracle
functions, since the solver library and the helper modules `utils` /
`intrinsic_search` are external to the file under verification.  The
control flow, arithmetic and dictionary manipulation of the Python file are
translated directly.
-/

namespace IntelliSMT

/-! ## The `UNSATVerifier` class (`intrinsic_naive.py`, lines 29-79)

`UNSATVerifier` owns a cvc5 solver.  The observable solver state relevant to
the script is the list of asserted formulas plus the statistics dictionary
captured after each `checkSat` call.  `φ` is the type of parsed SMT2
formulas, `σ` the type of solver-statistics values. -/


/-- State of an `UNSATVerifier`: the solver's current assertion list and the
`statistics` attribute (Python initialises it to `None`). -/
structure VerifierState (φ σ : Type) where
  assertions : List φ
  statistics : Option σ
deriving DecidableEq

/-- Behaviour of the external cvc5 solver, abstracted as functions of the
current assertion list: `isUnsat` models `solver.checkSat().isUnsat()` and
`stats` models `solver.getStatistics().get()`.  The `set-logic` fallback in
`check` only configures the solver and is absorbed into these oracles. -/
structure SolverOracle (φ σ : Type) where
  isUnsat : List φ → Bool
  stats : List φ → σ

variable {γ φ σ : Type}

/-- Fresh `UNSATVerifier()`: a new solver with no assertions and
`statistics = None`. -/
def freshVerifier (φ σ : Type) : VerifierState φ σ := ⟨[], none⟩

/-- Method `UNSATVerifier.reset` (lines 44-47): `solver.resetAssertions()`. -/
def UNSATVerifier.reset (st : VerifierState φ σ) : VerifierState φ σ :=
  { st with assertions := [] }

/-- Method `UNSATVerifier.check` (lines 49-79).  `build` models
`build_smt2_formula_from_string_constraints` (imported from `utils`, not part
of the file): it takes the candidate constraint subset, the full string
constraint list, the full SMT2 constraint list and the placeholder string and
produces one SMT2 formula.  `parse_input_formula` asserts the parsed formula
into the solver, `checkSat().isUnsat()` is queried on the resulting
assertion list, the statistics attribute is overwritten, and on the
satisfiable branch the assertions are reset before returning `False`. -/
def UNSATVerifier.check (build : List γ → List γ → List φ → String → φ)
    (oracle : SolverOracle φ σ) (st : VerifierState φ σ)
    (constraints all_constraints : List γ) (all_smt2_constraints : List φ)
    (placeholder : String) : Bool × VerifierState φ σ :=
  let smt2_formula := build constraints all_constraints all_smt2_constraints placeholder
  let asserted := st.assertions ++ [smt2_formula]
  let result := oracle.isUnsat asserted
  let st1 : VerifierState φ σ := ⟨asserted, some (oracle.stats asserted)⟩
  if result then (true, st1)
  else (false, UNSATVerifier.reset st1)

/-! ## Random subset sampling (line 110)

`subset = [element for element in all_clauses if random.choice([True, False])]`
draws one independent uniform coin per element of `all_clauses`, in order,
and keeps the elements whose coin came up `True`.  We model the coin
outcomes as a list of Booleans consumed positionally. -/


/-- Applies a list of coin-flip outcomes positionally to a clause list,
keeping exactly the clauses whose flip is `true`; this is the meaning of the
list comprehension on line 110 for one fixed draw of the coins. -/
def applyMask : List Bool → List α → List α
  | b :: bs, a :: as => if b then a :: applyMask bs as else applyMask bs as
  | _, _ => []

/-- Samples a subset of `l` given a coin-flip stream `flip` indexed by
element position: one flip per element of `l`. -/
def sample (flip : Nat → Bool) (l : List α) : List α :=
  applyMask ((List.range l.length).map flip) l

/-! ## Benchmark instances and `stratify_by_interval` (lines 82-161)

For each instance the script first obtains the ground-truth unsat core of
the full formula (`check_subset_unsat` followed by `solver.getUnsatCore()`,
both delegated to the solver and to the `intrinsic_search` module), then
runs up to `n` sampling trials, then aggregates per-instance statistics into
a dictionary keyed by f-strings of the size interval plus the key
`'Total'`. -/


/-- Type of `build_smt2_formula_from_string_constraints`:  subset of string
constraints, all string constraints, all SMT2 constraints, placeholder. -/
abbrev BuildFn (γ φ : Type) : Type := List γ → List γ → List φ → String → φ

/-- One benchmark instance together with the external data that determines
the run on it.  `constraints`, `smt2_constraints` and `placeholder` are the
JSON fields read on lines 105-107.  `mus` is modelled from the spec: it is
the ground-truth minimal unsat core that `solver.getUnsatCore()` returns for
the full formula after `check_subset_unsat` (the `intrinsic_search` helper is
not part of the file under verification).  `flips` records the outcomes of
`random.choice([True, False])`: `flips t i` is the coin drawn in trial `t`
for the clause at position `i`. -/
structure Instance (γ φ : Type) where
  constraints : List γ
  smt2_constraints : List φ
  placeholder : String
  mus : List γ
  flips : Nat → Nat → Bool

/-- Verdict of one trial (lines 111-115): a fresh `UNSATVerifier` is
constructed and its `check` method is called on the sampled subset with the
instance's full constraint context. -/
def checkCandidate (build : BuildFn γ φ) (oracle : SolverOracle φ σ)
    (inst : Instance γ φ) (subset : List γ) : Bool :=
  (UNSATVerifier.check build oracle (freshVerifier φ σ) subset inst.constraints
    inst.smt2_constraints inst.placeholder).1

/-- Sampling loop of lines 109-119, started at trial index `t` with `k + 1`
trials remaining (the loop runs `for _ in range(n)` with `n = k + 1` when
called with `trialsFrom build oracle inst 0 k`).  Returns the final value of
`is_unsat`, the final value of `subset` (the last subset sampled before the
loop ended), and the number of trials actually executed; the loop breaks as
soon as a sampled subset is verified unsatisfiable. -/
def trialsFrom (build : BuildFn γ φ) (oracle : SolverOracle φ σ)
    (inst : Instance γ φ) (t : Nat) : Nat → Bool × List γ × Nat
  | 0 =>
    let subset := sample (inst.flips t) inst.constraints
    (checkCandidate build oracle inst subset, subset, 1)
  | k + 1 =>
    let subset := sample (inst.flips t) inst.constraints
    if checkCandidate build oracle inst subset then (true, subset, 1)
    else
      let r := trialsFrom build oracle inst (t + 1) k
      (r.1, r.2.1, r.2.2 + 1)

/-- Final value of `is_unsat` for an instance after its at most `n` trials
(`False` without a single trial when `n = 0`, matching the initialisation on
line 108). -/
def succeeded (build : BuildFn γ φ) (oracle : SolverOracle φ σ)
    (inst : Instance γ φ) (n : Nat) : Bool :=
  match n with
  | 0 => false
  | k + 1 => (trialsFrom build oracle inst 0 k).1

/-- Final value of `subset` after the trials: the last sampled subset.  For
`n = 0` the Python variable is unbound (see `processInstance`). -/
def lastSubset (build : BuildFn γ φ) (oracle : SolverOracle φ σ)
    (inst : Instance γ φ) (n : Nat) : List γ :=
  match n with
  | 0 => []
  | k + 1 => (trialsFrom build oracle inst 0 k).2.1

/-- Reduction ratio of lines 121-124:
`(len(all_clauses) - len(subset)) / (len(all_clauses) - len(mus))`, where the
`except ZeroDivisionError` branch yields `0.0`.  The integer denominator is
zero exactly when the two lengths are equal, so the guard is the equality
test. -/
def instanceRatio (inst : Instance γ φ) (subsetLen : Nat) : ℚ :=
  if inst.constraints.length = inst.mus.length then 0
  else ((inst.constraints.length : ℚ) - (subsetLen : ℚ)) /
    ((inst.constraints.length : ℚ) - (inst.mus.length : ℚ))

/-- Per-instance work of the loop body, lines 109-131: runs the trials and
computes the ratio and the value appended to `pct` (lines 126-131: the
reduction fraction on success, `0` on failure).  `none` models an uncaught
Python exception: for `n = 0` the name `subset` is unbound at line 122
(`NameError`), and for a successful instance with an empty clause list the
fraction on line 127 divides by zero (`ZeroDivisionError`, not guarded).
On success the result carries `is_unsat`, the length of the last subset, the
bucket ratio and the `pct` entry. -/
def processInstance (build : BuildFn γ φ) (oracle : SolverOracle φ σ)
    (n : Nat) (inst : Instance γ φ) : Option (Bool × Nat × ℚ × ℚ) :=
  match n with
  | 0 => none
  | k + 1 =>
    let r := trialsFrom build oracle inst 0 k
    let is_unsat := r.1
    let subset := r.2.1
    let ratio := instanceRatio inst subset.length
    if is_unsat then
      if inst.constraints.length = 0 then none
      else
        some (true, subset.length, ratio,
          ((inst.constraints.length : ℚ) - (subset.length : ℚ)) /
            (inst.constraints.length : ℚ))
    else some (false, subset.length, ratio, 0)

/-- Lower limit of an instance's size interval, line 133:
`len(all_clauses) - (len(all_clauses) % 10)`. -/
def lowerLim (m : Nat) : Nat := m - m % 10

/-- Keys of the `stratified_results` dictionary: the f-string interval keys
`f'{lower_lim}-{upper_lim}'` (represented by their lower limit, which the
rendered string determines) and the literal key `'Total'`. -/
inductive BucketKey : Type where
  | interval (lo : Nat)
  | total
deriving DecidableEq, Repr

/-- The actual Python string of a dictionary key: line 135 for interval keys
and the literal `'Total'` on lines 148-157. -/
def BucketKey.render : BucketKey → String
  | .interval lo => toString lo ++ "-" ++ toString (lo + 10)
  | .total => "Total"

/-- A dictionary value `[[correct, total], ratio_sum]`. -/
abbrev BucketVal : Type := (Nat × Nat) × ℚ

/-- Dictionary update of lines 136-157: if the key is present, its
`[correct, total]` pair is incremented (`correct` only when `is_unsat`) and
the ratio is added; otherwise a fresh entry `[[0 or 1, 1], ratio]` is
appended at the end, as Python dict insertion does. -/
def updateBucket : List (BucketKey × BucketVal) → BucketKey → Bool → ℚ →
    List (BucketKey × BucketVal)
  | [], key, is_unsat, ratio => [(key, ((if is_unsat then 1 else 0, 1), ratio))]
  | p :: ps, key, is_unsat, ratio =>
    if p.1 = key then
      (key, ((p.2.1.1 + (if is_unsat then 1 else 0), p.2.1.2 + 1), ratio + p.2.2)) :: ps
    else p :: updateBucket ps key is_unsat ratio

/-- Dictionary membership and lookup (`if key in stratified_results` and
`stratified_results[key]`). -/
def lookupKey (key : BucketKey) : List (BucketKey × BucketVal) → Option BucketVal
  | [] => none
  | p :: ps => if p.1 = key then some p.2 else lookupKey key ps

/-- Accumulator of the main loop: the `stratified_results` dictionary in
insertion order plus the `pct` and `pct_corr` lists. -/
structure EvalState : Type where
  results : List (BucketKey × BucketVal)
  pct : List ℚ
  pct_corr : List ℚ
deriving DecidableEq

/-- Initial accumulator, line 102-103: empty dictionary and empty lists. -/
def initState : EvalState := ⟨[], [], []⟩

/-- One iteration of the loop over `data_instances` (lines 104-157):
process the instance, append its entry to `pct` (and to `pct_corr` on
success), and update the instance's interval bucket and the `'Total'`
bucket. -/
def stepInstance (build : BuildFn γ φ) (oracle : SolverOracle φ σ)
    (n : Nat) (st : EvalState) (inst : Instance γ φ) : Option EvalState :=
  match processInstance build oracle n inst with
  | none => none
  | some (is_unsat, _, ratio, pe) =>
    let key := BucketKey.interval (lowerLim inst.constraints.length)
    let r1 := updateBucket st.results key is_unsat ratio
    let r2 := updateBucket r1 BucketKey.total is_unsat ratio
    some ⟨r2, st.pct ++ [pe], if is_unsat then st.pct_corr ++ [pe] else st.pct_corr⟩

/-- The main loop folded over the remaining instances; `none` propagates an
uncaught exception. -/
def runAll (build : BuildFn γ φ) (oracle : SolverOracle φ σ)
    (n : Nat) : EvalState → List (Instance γ φ) → Option EvalState
  | st, [] => some st
  | st, inst :: rest =>
    match stepInstance build oracle n st inst with
    | none => none
    | some st1 => runAll build oracle n st1 rest

/-- Python string comparison, code point by code point: `charListLe cs ds`
decides whether `cs` precedes or equals `ds` in the lexicographic order on
code points; a proper prefix precedes its extensions.  This is how Python
compares the key strings inside `sorted` on line 159. -/
def charListLe : List Char → List Char → Bool
  | [], _ => true
  | _ :: _, [] => false
  | c :: cs, d :: ds =>
    if c.toNat < d.toNat then true
    else if d.toNat < c.toNat then false
    else charListLe cs ds

/-- Python `s <= t` on strings. -/
def pyStrLe (s t : String) : Bool := charListLe s.data t.data

/-- Order used by `dict(sorted(stratified_results.items()))` on line 159:
Python compares the items componentwise, and since dictionary keys are
distinct the comparison is decided by the key strings alone. -/
def keyLE (p q : BucketKey × BucketVal) : Prop :=
  pyStrLe p.1.render q.1.render = true

instance : DecidableRel keyLE := fun _ _ => inferInstanceAs (Decidable (_ = true))

/-- Python's `statistics.mean`: raises `StatisticsError` on an empty list,
otherwise returns sum divided by length. -/
def meanQ (l : List ℚ) : Option ℚ :=
  if l.isEmpty then none else some (l.sum / (l.length : ℚ))

/-- Function `stratify_by_interval` (lines 82-161), with the dataset read
from disk abstracted into the `data` argument and the solver behaviour into
`build` and `oracle`.  Returns the sorted stratified dictionary and the two
means, or `none` when the Python code raises (inside the loop, or in
`statistics.mean` on line 161). -/
def stratify_by_interval (build : BuildFn γ φ) (oracle : SolverOracle φ σ)
    (n : Nat) (data : List (Instance γ φ)) :
    Option (List (BucketKey × BucketVal) × ℚ × ℚ) :=
  match runAll build oracle n initState data with
  | none => none
  | some st =>
    match meanQ st.pct, meanQ st.pct_corr with
    | some p, some pc => some (List.insertionSort keyLE st.results, p, pc)
    | _, _ => none

/-! ## Aggregate quantities of the stratified dictionary -/


/-- Sum of the `correct` counters over the interval entries, the `'Total'`
entry excluded. -/
def corrSum : List (BucketKey × BucketVal) → Nat
  | [] => 0
  | p :: ps => (if p.1 = BucketKey.total then 0 else p.2.1.1) + corrSum ps

/-- Sum of the `total` counters over the interval entries, the `'Total'`
entry excluded. -/
def totSum : List (BucketKey × BucketVal) → Nat
  | [] => 0
  | p :: ps => (if p.1 = BucketKey.total then 0 else p.2.1.2) + totSum ps

/-- Sum of the ratio accumulators over the interval entries, the `'Total'`
entry excluded. -/
def ratSum : List (BucketKey × BucketVal) → ℚ
  | [] => 0
  | p :: ps => (if p.1 = BucketKey.total then 0 else p.2.2) + ratSum ps

/-- Invariant of the `stratified_results` accumulator after `k` processed
instances: every entry satisfies `correct ≤ total`, and either no instance
has been processed and the dictionary is empty, or the `'Total'` entry
exists, its `total` equals `k`, and the interval columns sum to the
`'Total'` entry componentwise. -/
def Inv (d : List (BucketKey × BucketVal)) (k : Nat) : Prop :=
  (∀ p ∈ d, p.2.1.1 ≤ p.2.1.2) ∧
  (match lookupKey BucketKey.total d with
   | none => k = 0 ∧ d = []
   | some ((c, t), r) => t = k ∧ corrSum d = c ∧ totSum d = t ∧ ratSum d = r)

/-- Value appended to the `pct` list for an instance (`0` when its
processing raises, a case that never reaches the `pct` computation). -/
def pctEntry (build : BuildFn γ φ) (oracle : SolverOracle φ σ)
    (n : Nat) (inst : Instance γ φ) : ℚ :=
  match processInstance build oracle n inst with
  | some (_, _, _, pe) => pe
  | none => 0

/-! ## Concrete data used for witnesses and counterexamples -/


/-- Concrete instance with 100 clauses whose coins always come up `True`. -/
def exInstance100 : Instance Nat Nat :=
  ⟨List.range 100, [], "", [0], fun _ _ => true⟩

/-- Concrete instance with 20 clauses whose coins always come up `True`. -/
def exInstance20 : Instance Nat Nat :=
  ⟨List.range 20, [], "", [0], fun _ _ => true⟩

/-- Trivial formula builder for concrete runs. -/
def exBuild : BuildFn Nat Nat := fun _ _ _ _ => 0

/-- Solver oracle that decides every candidate unsatisfiable. -/
def exOracleUnsat : SolverOracle Nat Nat := ⟨fun _ => true, fun _ => 0⟩

/-- Solver oracle that decides every candidate satisfiable. -/
def exOracleSat : SolverOracle Nat Nat := ⟨fun _ => false, fun _ => 0⟩

/-! ## Order lemmas for the key comparison -/

theorem charListLe_total (as : List Char) :
    ∀ bs, charListLe as bs = true ∨ charListLe bs as = true := by
  induction as with
  | nil => intro bs; left; cases bs <;> rfl
  | cons a as ih =>
    intro bs
    cases bs with
    | nil => right; rfl
    | cons b bs =>
      simp only [charListLe]
      rcases Nat.lt_trichotomy a.toNat b.toNat with h | h | h
      · left; rw [if_pos h]
      · rcases ih bs with hc | hc
        · left; rw [if_neg (by omega), if_neg (by omega)]; exact hc
        · right; rw [if_neg (by omega), if_neg (by omega)]; exact hc
      · right; rw [if_pos h]

theorem charListLe_trans : ∀ as bs cs : List Char, charListLe as bs = true →
    charListLe bs cs = true → charListLe as cs = true := by
  intro as
  induction as with
  | nil => intro bs cs _ _; cases cs <;> rfl
  | cons a as ih =>
    intro bs cs hab hbc
    cases bs with
    | nil => simp [charListLe] at hab
    | cons b bs =>
      cases cs with
      | nil => simp [charListLe] at hbc
      | cons c cs =>
        simp only [charListLe] at hab hbc ⊢
        by_cases h1 : a.toNat < b.toNat
        · by_cases h2 : b.toNat < c.toNat
          · rw [if_pos (by omega)]
          · by_cases h3 : c.toNat < b.toNat
            · rw [if_neg h2, if_pos h3] at hbc; exact absurd hbc (by simp)
            · rw [if_pos (by omega)]
        · by_cases h4 : b.toNat < a.toNat
          · rw [if_neg h1, if_pos h4] at hab; exact absurd hab (by simp)
          · rw [if_neg h1, if_neg h4] at hab
            by_cases h2 : b.toNat < c.toNat
            · rw [if_pos (by omega)]
            · by_cases h3 : c.toNat < b.toNat
              · rw [if_neg h2, if_pos h3] at hbc; exact absurd hbc (by simp)
              · rw [if_neg h2, if_neg h3] at hbc
                rw [if_neg (by omega), if_neg (by omega)]
                exact ih bs cs hab hbc

instance : IsTotal (BucketKey × BucketVal) keyLE :=
  ⟨fun p q => charListLe_total p.1.render.data q.1.render.data⟩

instance : IsTrans (BucketKey × BucketVal) keyLE :=
  ⟨fun _ _ _ h₁ h₂ => charListLe_trans _ _ _ h₁ h₂⟩

theorem applyMask_sublist (bs : List Bool) (l : List α) :
    (applyMask bs l).Sublist l := by
  induction l generalizing bs with
  | nil => cases bs <;> simp [applyMask]
  | cons a as ih =>
    cases bs with
    | nil => simp [applyMask]
    | cons b bs =>
      cases b with
      | true => simpa [applyMask] using (ih bs).cons₂ a
      | false => simpa [applyMask] using (ih bs).cons a

theorem applyMask_surjective {l s : List α} (h : s.Sublist l) :
    ∃ bs : List Bool, bs.length = l.length ∧ applyMask bs l = s := by
  induction h with
  | slnil => exact ⟨[], rfl, rfl⟩
  | cons a h ih =>
    obtain ⟨bs, hlen, hmask⟩ := ih
    exact ⟨false :: bs, by simp [hlen], by simp [applyMask, hmask]⟩
  | cons₂ a h ih =>
    obtain ⟨bs, hlen, hmask⟩ := ih
    exact ⟨true :: bs, by simp [hlen], by simp [applyMask, hmask]⟩

theorem applyMask_injective {l : List α} (hnd : l.Nodup) :
    ∀ bs₁ bs₂ : List Bool, bs₁.length = l.length → bs₂.length = l.length →
      applyMask bs₁ l = applyMask bs₂ l → bs₁ = bs₂ := by
  induction l with
  | nil =>
    intro bs₁ bs₂ h₁ h₂ _
    rw [List.length_nil, List.length_eq_zero] at h₁ h₂
    rw [h₁, h₂]
  | cons a as ih =>
    intro bs₁ bs₂ h₁ h₂ heq
    match bs₁, bs₂ with
    | b₁ :: t₁, b₂ :: t₂ =>
      simp only [List.length_cons, Nat.succ.injEq] at h₁ h₂
      have hnd' : as.Nodup := hnd.of_cons
      have hmem : a ∉ as := (List.nodup_cons.mp hnd).1
      match b₁, b₂ with
      | true, true =>
        simp only [applyMask, if_true, List.cons.injEq] at heq
        rw [ih hnd' t₁ t₂ h₁ h₂ heq.2]
      | false, false =>
        simp only [applyMask, if_false] at heq
        rw [ih hnd' t₁ t₂ h₁ h₂ heq]
      | true, false =>
        exfalso
        simp only [applyMask, if_true, Bool.false_eq_true, if_false] at heq
        have : a ∈ applyMask t₂ as := by rw [← heq]; exact List.mem_cons_self a _
        exact hmem ((applyMask_sublist t₂ as).subset this)
      | false, true =>
        exfalso
        simp only [applyMask, if_true, Bool.false_eq_true, if_false] at heq
        have : a ∈ applyMask t₁ as := by rw [heq]; exact List.mem_cons_self a _
        exact hmem ((applyMask_sublist t₁ as).subset this)

/-! ## Properties of the sampling loop -/

/-! ## Properties of the sampling loop -/

theorem trialsFrom_count (build : BuildFn γ φ) (oracle : SolverOracle φ σ)
    (inst : Instance γ φ) :
    ∀ k t, 1 ≤ (trialsFrom build oracle inst t k).2.2 ∧
      (trialsFrom build oracle inst t k).2.2 ≤ k + 1 := by
  intro k
  induction k with
  | zero => intro t; simp [trialsFrom]
  | succ k ih =>
    intro t
    simp only [trialsFrom]
    by_cases h : checkCandidate build oracle inst
        (sample (inst.flips t) inst.constraints) = true
    · simp [h]
    · simp only [Bool.not_eq_true] at h
      simp only [h, Bool.false_eq_true, if_false]
      have := ih (t + 1)
      constructor <;> omega

theorem trialsFrom_false_count (build : BuildFn γ φ) (oracle : SolverOracle φ σ)
    (inst : Instance γ φ) :
    ∀ k t, (trialsFrom build oracle inst t k).1 = false →
      (trialsFrom build oracle inst t k).2.2 = k + 1 := by
  intro k
  induction k with
  | zero => intro t h; simp [trialsFrom]
  | succ k ih =>
    intro t h
    simp only [trialsFrom] at h ⊢
    by_cases hc : checkCandidate build oracle inst
        (sample (inst.flips t) inst.constraints) = true
    · simp [hc] at h
    · simp only [Bool.not_eq_true] at hc
      simp only [hc, Bool.false_eq_true, if_false] at h ⊢
      rw [ih (t + 1) h]

theorem trialsFrom_true_iff (build : BuildFn γ φ) (oracle : SolverOracle φ σ)
    (inst : Instance γ φ) :
    ∀ k t, (trialsFrom build oracle inst t k).1 = true ↔
      ∃ j, j ≤ k ∧ checkCandidate build oracle inst
        (sample (inst.flips (t + j)) inst.constraints) = true := by
  intro k
  induction k with
  | zero =>
    intro t
    simp only [trialsFrom]
    constructor
    · intro h; exact ⟨0, Nat.le_refl 0, by simpa using h⟩
    · rintro ⟨j, hj, h⟩
      have : j = 0 := Nat.le_zero.mp hj
      subst this; simpa using h
  | succ k ih =>
    intro t
    simp only [trialsFrom]
    by_cases hc : checkCandidate build oracle inst
        (sample (inst.flips t) inst.constraints) = true
    · simp only [hc, if_true]
      exact iff_of_true (by simp) ⟨0, Nat.zero_le _, by simpa using hc⟩
    · simp only [Bool.not_eq_true] at hc
      simp only [hc, Bool.false_eq_true, if_false]
      rw [ih (t + 1)]
      constructor
      · rintro ⟨j, hj, h⟩
        exact ⟨j + 1, by omega, by rw [show t + (j + 1) = t + 1 + j by omega]; exact h⟩
      · rintro ⟨j, hj, h⟩
        match j with
        | 0 =>
          rw [Nat.add_zero] at h
          rw [h] at hc
          exact absurd hc (by simp)
        | j + 1 =>
          exact ⟨j, by omega, by rw [show t + 1 + j = t + (j + 1) by omega]; exact h⟩

theorem trialsFrom_stops_at_first (build : BuildFn γ φ) (oracle : SolverOracle φ σ)
    (inst : Instance γ φ) :
    ∀ k t, (trialsFrom build oracle inst t k).1 = true →
      checkCandidate build oracle inst
        (sample (inst.flips (t + ((trialsFrom build oracle inst t k).2.2 - 1)))
          inst.constraints) = true ∧
      ∀ j, j < (trialsFrom build oracle inst t k).2.2 - 1 →
        checkCandidate build oracle inst
          (sample (inst.flips (t + j)) inst.constraints) = false := by
  intro k
  induction k with
  | zero =>
    intro t h
    simp only [trialsFrom] at h ⊢
    exact ⟨by simpa using h, fun j hj => absurd hj (by omega)⟩
  | succ k ih =>
    intro t h
    simp only [trialsFrom] at h ⊢
    by_cases hc : checkCandidate build oracle inst
        (sample (inst.flips t) inst.constraints) = true
    · simp only [hc, if_true]
      exact ⟨by simpa using hc, fun j hj => absurd hj (by omega)⟩
    · simp only [Bool.not_eq_true] at hc
      simp only [hc, Bool.false_eq_true, if_false] at h ⊢
      have h1 := (ih (t + 1) h).1
      have h2 := (ih (t + 1) h).2
      have hcnt := (trialsFrom_count build oracle inst k (t + 1)).1
      constructor
      · rw [show t + ((trialsFrom build oracle inst (t + 1) k).2.2 + 1 - 1) =
          t + 1 + ((trialsFrom build oracle inst (t + 1) k).2.2 - 1) by omega]
        exact h1
      · intro j hj
        match j with
        | 0 => rw [Nat.add_zero]; exact hc
        | j + 1 =>
          rw [show t + (j + 1) = t + 1 + j by omega]
          exact h2 j (by omega)

theorem trialsFrom_subset_eq (build : BuildFn γ φ) (oracle : SolverOracle φ σ)
    (inst : Instance γ φ) :
    ∀ k t, (trialsFrom build oracle inst t k).2.1 =
      sample (inst.flips (t + ((trialsFrom build oracle inst t k).2.2 - 1)))
        inst.constraints := by
  intro k
  induction k with
  | zero => intro t; simp [trialsFrom]
  | succ k ih =>
    intro t
    simp only [trialsFrom]
    by_cases hc : checkCandidate build oracle inst
        (sample (inst.flips t) inst.constraints) = true
    · simp [hc]
    · simp only [Bool.not_eq_true] at hc
      simp only [hc, Bool.false_eq_true, if_false]
      have hcnt := (trialsFrom_count build oracle inst k (t + 1)).1
      rw [show t + ((trialsFrom build oracle inst (t + 1) k).2.2 + 1 - 1) =
        t + 1 + ((trialsFrom build oracle inst (t + 1) k).2.2 - 1) by omega]
      exact ih (t + 1)

/-! ## Properties of the dictionary updates -/

theorem corrSum_updateBucket_interval (d : List (BucketKey × BucketVal))
    (lo : Nat) (b : Bool) (r : ℚ) :
    corrSum (updateBucket d (BucketKey.interval lo) b r) =
      corrSum d + (if b then 1 else 0) := by
  induction d with
  | nil => simp [updateBucket, corrSum]
  | cons p ps ih =>
    by_cases hp : p.1 = BucketKey.interval lo
    · simp only [updateBucket, hp, if_true, corrSum]
      rw [if_neg (show ¬(BucketKey.interval lo = BucketKey.total) by simp), if_neg (show ¬(BucketKey.interval lo = BucketKey.total) by simp)]
      omega
    · simp only [updateBucket, hp, if_false, corrSum, ih]
      omega

theorem totSum_updateBucket_interval (d : List (BucketKey × BucketVal))
    (lo : Nat) (b : Bool) (r : ℚ) :
    totSum (updateBucket d (BucketKey.interval lo) b r) = totSum d + 1 := by
  induction d with
  | nil => simp [updateBucket, totSum]
  | cons p ps ih =>
    by_cases hp : p.1 = BucketKey.interval lo
    · simp only [updateBucket, hp, if_true, totSum]
      rw [if_neg (show ¬(BucketKey.interval lo = BucketKey.total) by simp), if_neg (show ¬(BucketKey.interval lo = BucketKey.total) by simp)]
      omega
    · simp only [updateBucket, hp, if_false, totSum, ih]
      omega

theorem ratSum_updateBucket_interval (d : List (BucketKey × BucketVal))
    (lo : Nat) (b : Bool) (r : ℚ) :
    ratSum (updateBucket d (BucketKey.interval lo) b r) = ratSum d + r := by
  induction d with
  | nil => simp [updateBucket, ratSum]
  | cons p ps ih =>
    by_cases hp : p.1 = BucketKey.interval lo
    · simp only [updateBucket, hp, if_true, ratSum]
      rw [if_neg (show ¬(BucketKey.interval lo = BucketKey.total) by simp), if_neg (show ¬(BucketKey.interval lo = BucketKey.total) by simp)]
      ring
    · simp only [updateBucket, hp, if_false, ratSum, ih]
      ring

theorem corrSum_updateBucket_total (d : List (BucketKey × BucketVal))
    (b : Bool) (r : ℚ) :
    corrSum (updateBucket d BucketKey.total b r) = corrSum d := by
  induction d with
  | nil => simp [updateBucket, corrSum]
  | cons p ps ih =>
    by_cases hp : p.1 = BucketKey.total
    · simp only [updateBucket, hp, if_true, corrSum]
    · simp only [updateBucket, hp, if_false, corrSum, ih]

theorem totSum_updateBucket_total (d : List (BucketKey × BucketVal))
    (b : Bool) (r : ℚ) :
    totSum (updateBucket d BucketKey.total b r) = totSum d := by
  induction d with
  | nil => simp [updateBucket, totSum]
  | cons p ps ih =>
    by_cases hp : p.1 = BucketKey.total
    · simp only [updateBucket, hp, if_true, totSum]
    · simp only [updateBucket, hp, if_false, totSum, ih]

theorem ratSum_updateBucket_total (d : List (BucketKey × BucketVal))
    (b : Bool) (r : ℚ) :
    ratSum (updateBucket d BucketKey.total b r) = ratSum d := by
  induction d with
  | nil => simp [updateBucket, ratSum]
  | cons p ps ih =>
    by_cases hp : p.1 = BucketKey.total
    · simp only [updateBucket, hp, if_true, ratSum]
    · simp only [updateBucket, hp, if_false, ratSum, ih]

theorem lookupKey_total_updateBucket_interval (d : List (BucketKey × BucketVal))
    (lo : Nat) (b : Bool) (r : ℚ) :
    lookupKey BucketKey.total (updateBucket d (BucketKey.interval lo) b r) =
      lookupKey BucketKey.total d := by
  induction d with
  | nil => simp [updateBucket, lookupKey]
  | cons p ps ih =>
    by_cases hp : p.1 = BucketKey.interval lo
    · simp only [updateBucket, hp, if_true, lookupKey]
      rw [if_neg (show ¬(BucketKey.interval lo = BucketKey.total) by simp), if_neg (show ¬(BucketKey.interval lo = BucketKey.total) by simp)]
    · simp only [updateBucket, hp, if_false, lookupKey, ih]

theorem lookupKey_updateBucket_self (d : List (BucketKey × BucketVal))
    (key : BucketKey) (b : Bool) (r : ℚ) :
    lookupKey key (updateBucket d key b r) =
      some (match lookupKey key d with
        | none => ((if b then 1 else 0, 1), r)
        | some ((c, t), ρ) => ((c + (if b then 1 else 0), t + 1), r + ρ)) := by
  induction d with
  | nil => simp [updateBucket, lookupKey]
  | cons p ps ih =>
    obtain ⟨pk, ⟨⟨pc, pt⟩, pρ⟩⟩ := p
    by_cases hp : pk = key
    · subst hp
      simp [updateBucket, lookupKey]
    · simp [updateBucket, lookupKey, hp, ih]

theorem lookupKey_updateBucket_other (d : List (BucketKey × BucketVal))
    (key key' : BucketKey) (hne : key ≠ key') (b : Bool) (r : ℚ) :
    lookupKey key (updateBucket d key' b r) = lookupKey key d := by
  induction d with
  | nil =>
    simp only [updateBucket, lookupKey]
    rw [if_neg (fun he => hne he.symm)]
  | cons p ps ih =>
    by_cases hp : p.1 = key'
    · simp only [updateBucket, hp, if_true, lookupKey]
      rw [if_neg (fun he => hne he.symm), if_neg (fun he => hne he.symm)]
    · simp only [updateBucket, hp, if_false, lookupKey, ih]

theorem updateBucket_bounds (d : List (BucketKey × BucketVal))
    (key : BucketKey) (b : Bool) (r : ℚ)
    (h : ∀ p ∈ d, p.2.1.1 ≤ p.2.1.2) :
    ∀ p ∈ updateBucket d key b r, p.2.1.1 ≤ p.2.1.2 := by
  induction d with
  | nil =>
    intro p hp
    simp only [updateBucket, List.mem_singleton] at hp
    subst hp
    cases b <;> simp
  | cons q qs ih =>
    intro p hp
    by_cases hq : q.1 = key
    · simp only [updateBucket, hq, if_true, List.mem_cons] at hp
      rcases hp with hp | hp
      · subst hp
        have hqb := h q (List.mem_cons_self q qs)
        cases b <;> simp <;> omega
      · exact h p (List.mem_cons_of_mem q hp)
    · simp only [updateBucket, hq, if_false, List.mem_cons] at hp
      rcases hp with hp | hp
      · subst hp; exact h p (List.mem_cons_self p qs)
      · exact ih (fun x hx => h x (List.mem_cons_of_mem q hx)) p hp

theorem lookupKey_mem (key : BucketKey) (d : List (BucketKey × BucketVal))
    (v : BucketVal) (h : lookupKey key d = some v) : (key, v) ∈ d := by
  induction d with
  | nil => simp [lookupKey] at h
  | cons p ps ih =>
    obtain ⟨pk, pv⟩ := p
    simp only [lookupKey] at h
    by_cases hp : pk = key
    · subst hp
      rw [if_pos rfl] at h
      obtain rfl := Option.some.inj h
      exact List.mem_cons_self _ _
    · rw [if_neg hp] at h
      exact List.mem_cons_of_mem _ (ih h)

theorem Inv_init : Inv ([] : List (BucketKey × BucketVal)) 0 := by
  exact ⟨fun p hp => absurd hp (List.not_mem_nil p), by simp [lookupKey]⟩

theorem Inv_step (d : List (BucketKey × BucketVal)) (k : Nat) (lo : Nat)
    (b : Bool) (r : ℚ) (h : Inv d k) :
    Inv (updateBucket (updateBucket d (BucketKey.interval lo) b r)
      BucketKey.total b r) (k + 1) := by
  obtain ⟨hb, hl⟩ := h
  constructor
  · exact updateBucket_bounds _ _ _ _ (updateBucket_bounds _ _ _ _ hb)
  · rw [lookupKey_updateBucket_self, lookupKey_total_updateBucket_interval,
      corrSum_updateBucket_total, totSum_updateBucket_total,
      ratSum_updateBucket_total, corrSum_updateBucket_interval,
      totSum_updateBucket_interval, ratSum_updateBucket_interval]
    cases hlk : lookupKey BucketKey.total d with
    | none =>
      rw [hlk] at hl
      obtain ⟨hk, hd⟩ := hl
      subst hd
      simp only [corrSum, totSum, ratSum]
      refine ⟨by omega, by cases b <;> simp, by trivial, by ring⟩
    | some v =>
      obtain ⟨⟨c, t⟩, ρ⟩ := v
      rw [hlk] at hl
      obtain ⟨ht, hc, htt, hr⟩ := hl
      refine ⟨by omega, by rw [hc], by omega, ?_⟩
      rw [hr]
      ring

theorem stepInstance_results (build : BuildFn γ φ) (oracle : SolverOracle φ σ)
    (n : Nat) (st st1 : EvalState) (inst : Instance γ φ)
    (h : stepInstance build oracle n st inst = some st1) :
    ∃ b ratio, st1.results =
      updateBucket (updateBucket st.results
        (BucketKey.interval (lowerLim inst.constraints.length)) b ratio)
        BucketKey.total b ratio := by
  unfold stepInstance at h
  cases hp : processInstance build oracle n inst with
  | none => rw [hp] at h; simp at h
  | some v =>
    obtain ⟨b, sl, ratio, pe⟩ := v
    rw [hp] at h
    simp only [Option.some.injEq] at h
    exact ⟨b, ratio, by rw [← h]⟩

theorem runAll_inv (build : BuildFn γ φ) (oracle : SolverOracle φ σ) (n : Nat) :
    ∀ (data : List (Instance γ φ)) (st st' : EvalState) (k : Nat),
      Inv st.results k → runAll build oracle n st data = some st' →
      Inv st'.results (k + data.length) := by
  intro data
  induction data with
  | nil =>
    intro st st' k hinv h
    simp only [runAll, Option.some.injEq] at h
    subst h
    simpa using hinv
  | cons inst rest ih =>
    intro st st' k hinv h
    simp only [runAll] at h
    cases hs : stepInstance build oracle n st inst with
    | none => rw [hs] at h; simp at h
    | some st1 =>
      rw [hs] at h
      obtain ⟨b, ratio, hres⟩ := stepInstance_results build oracle n st st1 inst hs
      have hinv1 : Inv st1.results (k + 1) := by
        rw [hres]
        exact Inv_step st.results k _ b ratio hinv
      have := ih st1 st' (k + 1) hinv1 h
      simpa [Nat.add_comm, Nat.add_assoc, Nat.add_left_comm] using this

/-! ## Inversion lemmas for the per-instance processing and the main loop -/

/-! ## Inversion lemmas for the per-instance processing -/

theorem processInstance_inv (build : BuildFn γ φ) (oracle : SolverOracle φ σ)
    (n : Nat) (inst : Instance γ φ) (b : Bool) (sl : Nat) (r pe : ℚ)
    (h : processInstance build oracle n inst = some (b, sl, r, pe)) :
    b = succeeded build oracle inst n ∧
    sl = (lastSubset build oracle inst n).length ∧
    r = instanceRatio inst sl ∧
    (b = true → inst.constraints.length ≠ 0 ∧
      pe = ((inst.constraints.length : ℚ) - (sl : ℚ)) / (inst.constraints.length : ℚ)) ∧
    (b = false → pe = 0) := by
  match n with
  | 0 => simp [processInstance] at h
  | k + 1 =>
    simp only [processInstance, succeeded, lastSubset] at h ⊢
    by_cases hc : (trialsFrom build oracle inst 0 k).1 = true
    · rw [hc] at h
      simp only [if_true] at h
      by_cases hz : inst.constraints.length = 0
      · rw [if_pos hz] at h; exact absurd h (by simp)
      · rw [if_neg hz] at h
        simp only [Option.some.injEq, Prod.mk.injEq] at h
        obtain ⟨h1, h2, h3, h4⟩ := h
        subst h1; subst h2; subst h3; subst h4
        exact ⟨hc.symm, rfl, rfl, fun _ => ⟨hz, rfl⟩, fun hfalse => by simp at hfalse⟩
    · simp only [Bool.not_eq_true] at hc
      rw [hc] at h
      simp only [Bool.false_eq_true, if_false, Option.some.injEq, Prod.mk.injEq] at h
      obtain ⟨h1, h2, h3, h4⟩ := h
      subst h1; subst h2; subst h3; subst h4
      exact ⟨hc.symm, rfl, rfl, fun htrue => by simp at htrue, fun _ => rfl⟩

theorem lastSubset_length_le (build : BuildFn γ φ) (oracle : SolverOracle φ σ)
    (inst : Instance γ φ) (n : Nat) :
    (lastSubset build oracle inst n).length ≤ inst.constraints.length := by
  match n with
  | 0 => simp [lastSubset]
  | k + 1 =>
    simp only [lastSubset]
    rw [trialsFrom_subset_eq build oracle inst k 0]
    exact (applyMask_sublist _ _).length_le

theorem pctEntry_spec (build : BuildFn γ φ) (oracle : SolverOracle φ σ)
    (n : Nat) (inst : Instance γ φ)
    (h : (processInstance build oracle n inst).isSome = true) :
    0 ≤ pctEntry build oracle n inst ∧
    (succeeded build oracle inst n = false → pctEntry build oracle n inst = 0) ∧
    (succeeded build oracle inst n = true → pctEntry build oracle n inst =
      ((inst.constraints.length : ℚ) - ((lastSubset build oracle inst n).length : ℚ)) /
        (inst.constraints.length : ℚ)) := by
  obtain ⟨v, hv⟩ := Option.isSome_iff_exists.mp h
  obtain ⟨b, sl, r, pe⟩ := v
  obtain ⟨hb, hsl, -, htrue, hfalse⟩ := processInstance_inv build oracle n inst b sl r pe hv
  have hpe : pctEntry build oracle n inst = pe := by
    unfold pctEntry
    rw [hv]
  cases b with
  | false =>
    refine ⟨by rw [hpe, hfalse rfl], fun _ => by rw [hpe, hfalse rfl], fun hs => ?_⟩
    rw [← hb] at hs
    simp at hs
  | true =>
    obtain ⟨hz, hform⟩ := htrue rfl
    have hle : (sl : ℚ) ≤ (inst.constraints.length : ℚ) := by
      rw [hsl]
      exact_mod_cast lastSubset_length_le build oracle inst n
    refine ⟨?_, fun hs => by rw [← hb] at hs; simp at hs, fun _ => ?_⟩
    · rw [hpe, hform]
      apply div_nonneg
      · linarith
      · positivity
    · rw [hpe, hform, hsl]

theorem stepInstance_fields (build : BuildFn γ φ) (oracle : SolverOracle φ σ)
    (n : Nat) (st st1 : EvalState) (inst : Instance γ φ)
    (h : stepInstance build oracle n st inst = some st1) :
    ∃ b sl r pe, processInstance build oracle n inst = some (b, sl, r, pe) ∧
      st1.pct = st.pct ++ [pe] ∧
      st1.pct_corr = (if b then st.pct_corr ++ [pe] else st.pct_corr) := by
  unfold stepInstance at h
  cases hp : processInstance build oracle n inst with
  | none => rw [hp] at h; simp at h
  | some v =>
    obtain ⟨b, sl, r, pe⟩ := v
    rw [hp] at h
    simp only [Option.some.injEq] at h
    exact ⟨b, sl, r, pe, rfl, by rw [← h], by rw [← h]⟩

theorem runAll_mem_isSome (build : BuildFn γ φ) (oracle : SolverOracle φ σ)
    (n : Nat) : ∀ (data : List (Instance γ φ)) (st st' : EvalState),
    runAll build oracle n st data = some st' →
    ∀ inst ∈ data, (processInstance build oracle n inst).isSome = true := by
  intro data
  induction data with
  | nil => intro st st' _ inst hi; simp at hi
  | cons i rest ih =>
    intro st st' h inst hi
    simp only [runAll] at h
    cases hs : stepInstance build oracle n st i with
    | none => rw [hs] at h; simp at h
    | some st1 =>
      rw [hs] at h
      rcases List.mem_cons.mp hi with rfl | hi'
      · obtain ⟨b, sl, r, pe, hp, -, -⟩ := stepInstance_fields build oracle n st st1 inst hs
        rw [hp]
        rfl
      · exact ih st1 st' h inst hi'

theorem runAll_pct (build : BuildFn γ φ) (oracle : SolverOracle φ σ)
    (n : Nat) : ∀ (data : List (Instance γ φ)) (st st' : EvalState),
    runAll build oracle n st data = some st' →
    st'.pct = st.pct ++ data.map (pctEntry build oracle n) ∧
    st'.pct_corr = st.pct_corr ++
      (data.filter (fun i => succeeded build oracle i n)).map
        (pctEntry build oracle n) := by
  intro data
  induction data with
  | nil =>
    intro st st' h
    simp only [runAll, Option.some.injEq] at h
    subst h
    simp
  | cons i rest ih =>
    intro st st' h
    simp only [runAll] at h
    cases hs : stepInstance build oracle n st i with
    | none => rw [hs] at h; simp at h
    | some st1 =>
      rw [hs] at h
      obtain ⟨b, sl, r, pe, hp, hpct, hcorr⟩ :=
        stepInstance_fields build oracle n st st1 i hs
      have hbs : b = succeeded build oracle i n :=
        (processInstance_inv build oracle n i b sl r pe hp).1
      have hpe : pctEntry build oracle n i = pe := by
        unfold pctEntry
        rw [hp]
      obtain ⟨ih1, ih2⟩ := ih st1 st' h
      constructor
      · rw [ih1, hpct, List.map_cons, hpe, List.append_assoc, List.singleton_append]
      · rw [ih2, hcorr]
        subst hbs
        simp only [List.filter_cons]
        cases hb : succeeded build oracle i n with
        | true => simp [hpe]
        | false => simp

theorem meanQ_some {l : List ℚ} {m : ℚ} (h : meanQ l = some m) :
    l ≠ [] ∧ m = l.sum / (l.length : ℚ) := by
  unfold meanQ at h
  by_cases he : l.isEmpty
  · rw [if_pos he] at h; simp at h
  · rw [if_neg he] at h
    refine ⟨?_, (Option.some.inj h).symm⟩
    intro hnil
    rw [hnil] at he
    exact he rfl

theorem stratify_some_inv (build : BuildFn γ φ) (oracle : SolverOracle φ σ)
    (n : Nat) (data : List (Instance γ φ))
    (r : List (BucketKey × BucketVal) × ℚ × ℚ)
    (h : stratify_by_interval build oracle n data = some r) :
    ∃ st p pc, runAll build oracle n initState data = some st ∧
      meanQ st.pct = some p ∧ meanQ st.pct_corr = some pc ∧
      r = (List.insertionSort keyLE st.results, p, pc) := by
  unfold stratify_by_interval at h
  split at h
  · exact absurd h (by simp)
  · split at h
    · rename_i x1 st hr x2 x3 p pc hp hq
      exact ⟨st, p, pc, hr, hp, hq, (Option.some.inj h).symm⟩
    · exact absurd h (by simp)

theorem sum_map_filter_eq {α : Type} (f : α → ℚ) (p : α → Bool) :
    ∀ l : List α, (∀ a ∈ l, p a = false → f a = 0) →
      (l.map f).sum = ((l.filter p).map f).sum := by
  intro l
  induction l with
  | nil => intro _; rfl
  | cons a l ih =>
    intro h
    have hrest := ih (fun x hx => h x (List.mem_cons_of_mem a hx))
    simp only [List.map_cons, List.sum_cons, List.filter_cons]
    cases hp : p a with
    | true =>
      rw [if_pos rfl, List.map_cons, List.sum_cons, hrest]
    | false =>
      rw [if_neg (by simp), hrest, h a (List.mem_cons_self a l) hp, zero_add]

/-! ## The claims -/

/-- C1: `UNSATVerifier.check` returns `True` if and only if the external SMT
solver decides the formula built from the given constraint subset to be
unsatisfiable, and returns `False` otherwise.  Stated for an arbitrary
verifier state (the result is the solver's verdict on the assertion list
extended with the built formula) and specialised to the fresh verifier used
at every call site, where the assertion list is exactly the built formula. -/
theorem check_true_iff_solver_unsat
    (build : List γ → List γ → List φ → String → φ) (oracle : SolverOracle φ σ)
    (st : VerifierState φ σ) (cs acs : List γ) (ascs : List φ) (ph : String) :
    ((UNSATVerifier.check build oracle st cs acs ascs ph).1 = true ↔
      oracle.isUnsat (st.assertions ++ [build cs acs ascs ph]) = true) ∧
    ((UNSATVerifier.check build oracle (freshVerifier φ σ) cs acs ascs ph).1 = true ↔
      oracle.isUnsat [build cs acs ascs ph] = true) := by
  constructor
  · unfold UNSATVerifier.check
    cases h : oracle.isUnsat (st.assertions ++ [build cs acs ascs ph]) <;> simp [h]
  · unfold UNSATVerifier.check freshVerifier
    cases h : oracle.isUnsat ([] ++ [build cs acs ascs ph]) <;> simp_all

/-- C2: the interval key of an instance with `m` constraints is the string
`'{L}-{L+10}'` with `L = m - (m % 10)`; `L` is the unique multiple of `10`
with `L ≤ m < L + 10`, so every instance is assigned to exactly one size
bucket; in particular an instance with `m = 10` is placed in bucket
`'10-20'`, not `'0-10'`. -/
theorem interval_key_spec :
    (∀ m : Nat,
      (BucketKey.interval (lowerLim m)).render =
        toString (m - m % 10) ++ "-" ++ toString (m - m % 10 + 10) ∧
      lowerLim m % 10 = 0 ∧ lowerLim m ≤ m ∧ m < lowerLim m + 10 ∧
      (∀ L, L % 10 = 0 → L ≤ m → m < L + 10 → L = lowerLim m)) ∧
    (BucketKey.interval (lowerLim 10)).render = "10-20" ∧
    (BucketKey.interval (lowerLim 10)).render ≠ "0-10" := by
  refine ⟨fun m => ⟨rfl, ?_, ?_, ?_, fun L h1 h2 h3 => ?_⟩, by decide, by decide⟩
  · unfold lowerLim; omega
  · unfold lowerLim; omega
  · unfold lowerLim; omega
  · unfold lowerLim; omega

/-- Witness for C2 at `m = 37` and `L = 30`: the unique bucket is
`'30-40'`. -/
theorem interval_key_spec_witness :
    (30 : Nat) = lowerLim 37 ∧ (BucketKey.interval (lowerLim 37)).render = "30-40" := by
  exact ⟨(interval_key_spec.1 37).2.2.2.2 30 (by decide) (by decide) (by decide),
    by decide⟩

/-- C3: the reduction ratio aggregated into the buckets is
`(len(all_clauses) - len(subset)) / (len(all_clauses) - len(mus))` where
`subset` is the last sampled subset, the `except ZeroDivisionError` guard
maps the case `len(all_clauses) = len(mus)` to `0.0`, and the computation is
total: `processInstance` always carries exactly this guarded value. -/
theorem bucket_ratio_spec (build : BuildFn γ φ) (oracle : SolverOracle φ σ)
    (n : Nat) (inst : Instance γ φ) (hn : 1 ≤ n) :
    (∃ t, lastSubset build oracle inst n = sample (inst.flips t) inst.constraints) ∧
    (inst.constraints.length = inst.mus.length →
      instanceRatio inst (lastSubset build oracle inst n).length = 0) ∧
    (inst.constraints.length ≠ inst.mus.length →
      instanceRatio inst (lastSubset build oracle inst n).length =
        ((inst.constraints.length : ℚ) - ((lastSubset build oracle inst n).length : ℚ)) /
          ((inst.constraints.length : ℚ) - (inst.mus.length : ℚ))) ∧
    (∀ b sl r pe, processInstance build oracle n inst = some (b, sl, r, pe) →
      r = instanceRatio inst (lastSubset build oracle inst n).length) := by
  obtain ⟨k, rfl⟩ : ∃ k, n = k + 1 := ⟨n - 1, by omega⟩
  refine ⟨?_, ?_, ?_, ?_⟩
  · exact ⟨0 + ((trialsFrom build oracle inst 0 k).2.2 - 1),
      trialsFrom_subset_eq build oracle inst k 0⟩
  · intro h; simp [instanceRatio, h]
  · intro h; simp [instanceRatio, h]
  · intro b sl r pe h
    simp only [processInstance, lastSubset] at h ⊢
    by_cases hc : (trialsFrom build oracle inst 0 k).1 = true
    · rw [hc] at h
      simp only [if_true] at h
      by_cases hz : inst.constraints.length = 0
      · rw [if_pos hz] at h; exact absurd h (by simp)
      · rw [if_neg hz] at h
        simp only [Option.some.injEq, Prod.mk.injEq] at h
        exact h.2.2.1.symm
    · simp only [Bool.not_eq_true] at hc
      rw [hc] at h
      simp only [Bool.false_eq_true, if_false, Option.some.injEq, Prod.mk.injEq] at h
      exact h.2.2.1.symm

/-- Witness for C3 at a concrete instance with 2 clauses, a singleton unsat
core and an always-unsat solver: the guarded ratio is well defined. -/
theorem bucket_ratio_spec_witness :
    ∃ t, lastSubset (γ := Nat) (fun _ _ _ _ => 0)
        ⟨fun _ => true, fun _ => (0 : Nat)⟩ ⟨[1, 2], [], "", [1], fun _ _ => true⟩ 1 =
      sample ((⟨[1, 2], [], "", [1], fun _ _ => true⟩ :
        Instance Nat Nat).flips t) [1, 2] := by
  exact (bucket_ratio_spec (fun _ _ _ _ => 0) ⟨fun _ => true, fun _ => (0 : Nat)⟩ 1
    ⟨[1, 2], [], "", [1], fun _ _ => true⟩ (by omega)).1

/-- C4: every sampled candidate is a subset of the instance's clause list
obtained by one independent coin flip per clause: the sample is a sublist of
the clause list (so clause order is preserved and no clause outside the list
appears), every assignment of the coins has length equal to the clause list,
each order-preserving subset is produced by some assignment of the coins,
and for duplicate-free clause lists distinct coin assignments give distinct
subsets — so the uniform independent coins induce the uniform distribution
on the power set of the clause list. -/
theorem sample_uniform_sublist (flip : Nat → Bool) (l : List α) :
    (sample flip l).Sublist l ∧
    (∀ x, x ∈ sample flip l → x ∈ l) ∧
    (∀ s : List α, s.Sublist l →
      ∃ bs : List Bool, bs.length = l.length ∧ applyMask bs l = s) ∧
    (l.Nodup → ∀ bs₁ bs₂ : List Bool, bs₁.length = l.length →
      bs₂.length = l.length → applyMask bs₁ l = applyMask bs₂ l → bs₁ = bs₂) := by
  refine ⟨applyMask_sublist _ l, ?_, ?_, ?_⟩
  · intro x hx
    exact (applyMask_sublist _ l).subset hx
  · intro s hs
    exact applyMask_surjective hs
  · intro hnd
    exact applyMask_injective hnd

/-- Witness for C4 on a concrete clause list: the sublist `[2]` of `[1, 2]`
is realised by a concrete coin assignment, and the injectivity part applies
to the duplicate-free list `[1, 2]`. -/
theorem sample_uniform_sublist_witness :
    (sample (fun _ => true) [1, 2]).Sublist [1, 2] ∧
    ([2] : List Nat).Sublist [1, 2] ∧
    (∃ bs : List Bool, bs.length = 2 ∧ applyMask bs [1, 2] = [2]) ∧
    applyMask [false, true] ([1, 2] : List Nat) = [2] := by
  refine ⟨(sample_uniform_sublist (fun _ => true) [1, 2]).1, by decide, ?_, by decide⟩
  exact (sample_uniform_sublist (fun _ => true) [1, 2]).2.2.1 [2] (by decide)

/-- C5: for every instance the loop samples and checks at most `n` subsets,
stops as soon as one sampled subset is verified unsatisfiable (the trial at
which it stops is the first successful one), runs all `n` trials when none
succeeds, and the final `is_unsat` flag — the value that is counted as
correct in the instance's bucket — is `true` if and only if one of the at
most `n` sampled subsets was verified unsatisfiable. -/
theorem trials_bounded_and_stop_at_first (build : BuildFn γ φ)
    (oracle : SolverOracle φ σ) (inst : Instance γ φ) (n : Nat) (hn : 1 ≤ n) :
    (trialsFrom build oracle inst 0 (n - 1)).2.2 ≤ n ∧
    (succeeded build oracle inst n = true ↔
      ∃ t, t < n ∧ checkCandidate build oracle inst
        (sample (inst.flips t) inst.constraints) = true) ∧
    (succeeded build oracle inst n = true →
      checkCandidate build oracle inst
        (sample (inst.flips ((trialsFrom build oracle inst 0 (n - 1)).2.2 - 1))
          inst.constraints) = true ∧
      ∀ t, t < (trialsFrom build oracle inst 0 (n - 1)).2.2 - 1 →
        checkCandidate build oracle inst
          (sample (inst.flips t) inst.constraints) = false) ∧
    (succeeded build oracle inst n = false →
      (trialsFrom build oracle inst 0 (n - 1)).2.2 = n) ∧
    (∀ st st' : EvalState, stepInstance build oracle n st inst = some st' →
      ∃ t ρ, lookupKey (BucketKey.interval (lowerLim inst.constraints.length))
          st'.results =
        some (((match lookupKey
            (BucketKey.interval (lowerLim inst.constraints.length)) st.results with
          | none => 0
          | some v => v.1.1) +
          (if succeeded build oracle inst n then 1 else 0), t), ρ)) := by
  obtain ⟨k, rfl⟩ : ∃ k, n = k + 1 := ⟨n - 1, by omega⟩
  simp only [succeeded, Nat.add_sub_cancel]
  refine ⟨(trialsFrom_count build oracle inst k 0).2, ?_, ?_, ?_, ?_⟩
  · rw [trialsFrom_true_iff]
    constructor
    · rintro ⟨j, hj, h⟩; exact ⟨j, by omega, by simpa using h⟩
    · rintro ⟨t, ht, h⟩; exact ⟨t, by omega, by simpa using h⟩
  · intro h
    have := trialsFrom_stops_at_first build oracle inst k 0 h
    simpa using this
  · intro h
    exact trialsFrom_false_count build oracle inst k 0 h
  · intro st st' hs
    unfold stepInstance at hs
    cases hp : processInstance build oracle (k + 1) inst with
    | none => rw [hp] at hs; simp at hs
    | some v =>
      obtain ⟨b, sl2, r2, pe2⟩ := v
      rw [hp] at hs
      simp only [Option.some.injEq] at hs
      have hb : b = succeeded build oracle inst (k + 1) :=
        (processInstance_inv build oracle (k + 1) inst b sl2 r2 pe2 hp).1
      have hres : st'.results =
          updateBucket (updateBucket st.results
            (BucketKey.interval (lowerLim inst.constraints.length)) b r2)
            BucketKey.total b r2 := by rw [← hs]
      rw [hres, lookupKey_updateBucket_other _ _ _ (by simp) b r2,
        lookupKey_updateBucket_self]
      have hb' : (trialsFrom build oracle inst 0 k).1 = b := hb.symm
      cases hl : lookupKey
          (BucketKey.interval (lowerLim inst.constraints.length)) st.results with
      | none =>
        refine ⟨1, r2, ?_⟩
        simp only [hb']
        simp
      | some v2 =>
        obtain ⟨⟨c2, t2⟩, ρ2⟩ := v2
        refine ⟨t2 + 1, r2 + ρ2, ?_⟩
        simp only [hb']

/-- Witness for C5: a concrete instance and solver on which the loop stops
after the first trial and the success flag agrees with the existence of a
successful trial. -/
theorem trials_bounded_and_stop_at_first_witness :
    (trialsFrom (γ := Nat) (fun _ _ _ _ => 0) ⟨fun _ => true, fun _ => (0 : Nat)⟩
      ⟨[1, 2], [], "", [], fun _ _ => true⟩ 0 (3 - 1)).2.2 ≤ 3 ∧
    succeeded (γ := Nat) (fun _ _ _ _ => 0) ⟨fun _ => true, fun _ => (0 : Nat)⟩
      ⟨[1, 2], [], "", [], fun _ _ => true⟩ 3 = true := by
  refine ⟨(trials_bounded_and_stop_at_first (fun _ _ _ _ => 0)
    ⟨fun _ => true, fun _ => (0 : Nat)⟩
    ⟨[1, 2], [], "", [], fun _ _ => true⟩ 3 (by omega)).1, by decide⟩

/-- C6 counterexample: on a dataset with instance sizes 100 and 20 the
returned buckets are ordered `'100-110'`, `'20-30'`, `'Total'`: the bucket
with the larger lower limit 100 comes before the bucket with lower limit 20
even though 20 < 100, because `sorted` compares the keys as strings. -/
theorem stratified_keys_not_numeric :
    (stratify_by_interval exBuild exOracleUnsat 1
      [exInstance100, exInstance20]).map (fun r => r.1.map Prod.fst) =
      some [BucketKey.interval 100, BucketKey.interval 20, BucketKey.total] ∧
    (20 : Nat) < 100 :=
  ⟨by decide, by decide⟩

/-- C6 (amended): the stratified results are grouped into buckets by input
size and the bucket keys appear in the lexicographic code-point order of
their key strings (the order Python's `sorted` uses on strings); this
coincides with increasing lower limit only for limits whose decimal
renderings compare like their values, e.g. when all lower limits have the
same number of digits. -/
theorem stratified_keys_sorted (build : BuildFn γ φ) (oracle : SolverOracle φ σ)
    (n : Nat) (data : List (Instance γ φ))
    (h : (stratify_by_interval build oracle n data).isSome = true) :
    List.Sorted keyLE ((stratify_by_interval build oracle n data).get h).1 := by
  obtain ⟨st, p, pc, hr, hp, hq, hre⟩ :=
    stratify_some_inv build oracle n data _ (Option.some_get h).symm
  rw [hre]
  exact List.sorted_insertionSort keyLE st.results

/-- Witness for C6 (amended) on the concrete two-instance dataset. -/
theorem stratified_keys_sorted_witness :
    (stratify_by_interval exBuild exOracleUnsat 1
      [exInstance100, exInstance20]).isSome = true ∧
    List.Sorted keyLE ((stratify_by_interval exBuild exOracleUnsat 1
      [exInstance100, exInstance20]).get (by decide)).1 :=
  ⟨by decide, stratified_keys_sorted exBuild exOracleUnsat 1
    [exInstance100, exInstance20] (by decide)⟩

/-- C7: the second value returned by `stratify_by_interval` is the mean over
all instances of the per-instance reduction fraction, where an instance with
no unsatisfiable sampled subset contributes `0` and a successful instance
contributes `(|all_clauses| - |subset|) / |all_clauses|` for its last
sampled subset; the third value is the mean of the same fractions over the
successful instances only; and the second value is at most the third. -/
theorem mean_reduction_spec (build : BuildFn γ φ) (oracle : SolverOracle φ σ)
    (n : Nat) (data : List (Instance γ φ))
    (h : (stratify_by_interval build oracle n data).isSome = true) :
    ((stratify_by_interval build oracle n data).get h).2.1 =
      (data.map (pctEntry build oracle n)).sum / (data.length : ℚ) ∧
    ((stratify_by_interval build oracle n data).get h).2.2 =
      ((data.filter (fun i => succeeded build oracle i n)).map
        (pctEntry build oracle n)).sum /
        (((data.filter (fun i => succeeded build oracle i n)).length : ℚ)) ∧
    (∀ inst ∈ data, succeeded build oracle inst n = false →
      pctEntry build oracle n inst = 0) ∧
    (∀ inst ∈ data, succeeded build oracle inst n = true →
      pctEntry build oracle n inst =
        ((inst.constraints.length : ℚ) -
          ((lastSubset build oracle inst n).length : ℚ)) /
          (inst.constraints.length : ℚ)) ∧
    ((stratify_by_interval build oracle n data).get h).2.1 ≤
      ((stratify_by_interval build oracle n data).get h).2.2 := by
  obtain ⟨st, p, pc, hr, hp, hq, hre⟩ :=
    stratify_some_inv build oracle n data _ (Option.some_get h).symm
  have hisome := runAll_mem_isSome build oracle n data initState st hr
  obtain ⟨hpct, hcorr⟩ := runAll_pct build oracle n data initState st hr
  simp only [initState, List.nil_append] at hpct hcorr
  obtain ⟨hpne, hpval⟩ := meanQ_some hp
  obtain ⟨hcne, hcval⟩ := meanQ_some hq
  have hzero : ∀ inst ∈ data, succeeded build oracle inst n = false →
      pctEntry build oracle n inst = 0 := fun inst hi hf =>
    (pctEntry_spec build oracle n inst (hisome inst hi)).2.1 hf
  have hsucc : ∀ inst ∈ data, succeeded build oracle inst n = true →
      pctEntry build oracle n inst =
        ((inst.constraints.length : ℚ) -
          ((lastSubset build oracle inst n).length : ℚ)) /
          (inst.constraints.length : ℚ) := fun inst hi hs =>
    (pctEntry_spec build oracle n inst (hisome inst hi)).2.2 hs
  have hpeq : p = (data.map (pctEntry build oracle n)).sum / (data.length : ℚ) := by
    rw [hpval, hpct, List.length_map]
  have hceq : pc = ((data.filter (fun i => succeeded build oracle i n)).map
      (pctEntry build oracle n)).sum /
      (((data.filter (fun i => succeeded build oracle i n)).length : ℚ)) := by
    rw [hcval, hcorr, List.length_map]
  have hsum_eq : (data.map (pctEntry build oracle n)).sum =
      ((data.filter (fun i => succeeded build oracle i n)).map
        (pctEntry build oracle n)).sum :=
    sum_map_filter_eq (pctEntry build oracle n)
      (fun i => succeeded build oracle i n) data hzero
  have hS : 0 ≤ (data.map (pctEntry build oracle n)).sum := by
    apply List.sum_nonneg
    intro x hx
    obtain ⟨i, hi, rfl⟩ := List.mem_map.mp hx
    exact (pctEntry_spec build oracle n i (hisome i hi)).1
  have hKpos : 0 < (data.filter (fun i => succeeded build oracle i n)).length := by
    apply List.length_pos.mpr
    intro he
    rw [hcorr, he] at hcne
    exact hcne rfl
  have hKN : (data.filter (fun i => succeeded build oracle i n)).length ≤
      data.length := List.length_filter_le _ _
  have hple : p ≤ pc := by
    rw [hpeq, hceq, hsum_eq]
    apply div_le_div_of_nonneg_left
    · rw [← hsum_eq]; exact hS
    · exact_mod_cast hKpos
    · exact_mod_cast hKN
  rw [hre]
  exact ⟨hpeq, hceq, hzero, hsucc, hple⟩

/-- Witness for C7 on a concrete run with one successful instance: the two
returned means satisfy the inequality. -/
theorem mean_reduction_spec_witness :
    (stratify_by_interval exBuild exOracleUnsat 1 [exInstance20]).isSome = true ∧
    ((stratify_by_interval exBuild exOracleUnsat 1 [exInstance20]).get
        (by decide)).2.1 ≤
      ((stratify_by_interval exBuild exOracleUnsat 1 [exInstance20]).get
        (by decide)).2.2 :=
  ⟨by decide, (mean_reduction_spec exBuild exOracleUnsat 1 [exInstance20]
    (by decide)).2.2.2.2⟩

/-- C8: invariant of the stratified-results accumulator.  After every
processed instance each bucket entry `[[correct, total], ratio_sum]`
satisfies `correct ≤ total`; once at least one instance is processed the
`'Total'` entry exists, its `total` equals the number of instances processed
so far, and the per-interval `correct` counts, `total` counts and ratio sums
(excluding `'Total'`) each sum to the corresponding `'Total'` component. -/
theorem accumulator_invariant (build : BuildFn γ φ) (oracle : SolverOracle φ σ)
    (n : Nat) (pre : List (Instance γ φ))
    (h : (runAll build oracle n initState pre).isSome = true) :
    (∀ p ∈ ((runAll build oracle n initState pre).get h).results,
      p.2.1.1 ≤ p.2.1.2) ∧
    (pre = [] → ((runAll build oracle n initState pre).get h).results = []) ∧
    (pre ≠ [] → ∃ c t r,
      lookupKey BucketKey.total
        ((runAll build oracle n initState pre).get h).results = some ((c, t), r) ∧
      c ≤ t ∧ t = pre.length ∧
      corrSum ((runAll build oracle n initState pre).get h).results = c ∧
      totSum ((runAll build oracle n initState pre).get h).results = t ∧
      ratSum ((runAll build oracle n initState pre).get h).results = r) := by
  have hrun : runAll build oracle n initState pre =
      some ((runAll build oracle n initState pre).get h) := (Option.some_get h).symm
  have hinv := runAll_inv build oracle n pre initState _ 0 Inv_init hrun
  rw [Nat.zero_add] at hinv
  obtain ⟨hbnd, hl⟩ := hinv
  refine ⟨hbnd, ?_, ?_⟩
  · intro hpre
    subst hpre
    simp only [List.length_nil] at hl
    cases hlk : lookupKey BucketKey.total
        ((runAll build oracle n initState []).get h).results with
    | none => rw [hlk] at hl; exact hl.2
    | some v =>
      obtain ⟨⟨c, t⟩, ρ⟩ := v
      rw [hlk] at hl
      have hmem := lookupKey_mem _ _ _ hlk
      have hct := hbnd _ hmem
      -- with zero instances the Total entry would have total 0 and yet be
      -- present; this cannot happen because runAll on [] returns the state
      -- unchanged
      have : (runAll build oracle n initState ([] : List (Instance γ φ))).get h
          = initState := rfl
      rw [this] at hlk
      simp [initState, lookupKey] at hlk
  · intro hpre
    cases hlk : lookupKey BucketKey.total
        ((runAll build oracle n initState pre).get h).results with
    | none =>
      rw [hlk] at hl
      exact absurd hl.1 (by simpa using List.length_pos.mpr hpre |>.ne')
    | some v =>
      obtain ⟨⟨c, t⟩, ρ⟩ := v
      rw [hlk] at hl
      have hmem := lookupKey_mem _ _ _ hlk
      have hct := hbnd _ hmem
      exact ⟨c, t, ρ, rfl, hct, hl.1, hl.2.1, hl.2.2.1, hl.2.2.2⟩

/-- Witness for C8: on a concrete one-instance run the accumulator holds a
`'Total'` entry with total `1` and matching interval sums. -/
theorem accumulator_invariant_witness :
    (runAll exBuild exOracleUnsat 1 initState [exInstance20]).isSome = true ∧
    ∃ c t r, lookupKey BucketKey.total
        ((runAll exBuild exOracleUnsat 1 initState [exInstance20]).get
          (by decide)).results = some ((c, t), r) ∧
      c ≤ t ∧ t = ([exInstance20] : List (Instance Nat Nat)).length ∧
      corrSum ((runAll exBuild exOracleUnsat 1 initState
        [exInstance20]).get (by decide)).results = c ∧
      totSum ((runAll exBuild exOracleUnsat 1 initState
        [exInstance20]).get (by decide)).results = t ∧
      ratSum ((runAll exBuild exOracleUnsat 1 initState
        [exInstance20]).get (by decide)).results = r :=
  ⟨by decide, (accumulator_invariant exBuild exOracleUnsat 1 [exInstance20]
    (by decide)).2.2 (by simp)⟩

/-- C9: when the dataset is empty, or no instance in the dataset yields an
unsatisfiable sampled subset within its `n` attempts, `stratify_by_interval`
raises an exception (`statistics.mean` over an empty list, modelled by
`none`) instead of returning a result; it returns normally only when at
least one instance succeeds. -/
theorem stratify_raises_without_success (build : BuildFn γ φ)
    (oracle : SolverOracle φ σ) (n : Nat) (data : List (Instance γ φ)) :
    ((data = [] ∨ ∀ inst ∈ data, succeeded build oracle inst n = false) →
      stratify_by_interval build oracle n data = none) ∧
    (∀ res, stratify_by_interval build oracle n data = some res →
      ∃ inst ∈ data, succeeded build oracle inst n = true) := by
  constructor
  · intro hcase
    cases hr : runAll build oracle n initState data with
    | none => unfold stratify_by_interval; rw [hr]
    | some st =>
      have hcorr := (runAll_pct build oracle n data initState st hr).2
      have hempty : st.pct_corr = [] := by
        rcases hcase with rfl | hfail
        · simp only [runAll, Option.some.injEq] at hr
          rw [← hr]
          rfl
        · rw [hcorr]
          have hfil : data.filter (fun i => succeeded build oracle i n) = [] :=
            List.filter_eq_nil_iff.mpr (fun i hi => by simp [hfail i hi])
          simp [initState, hfil]
      have hnone : meanQ st.pct_corr = none := by rw [hempty]; rfl
      unfold stratify_by_interval
      rw [hr]
      split
      · rename_i x hq2
        exact absurd hq2 (by simp)
      · rename_i x st1 heq
        obtain rfl := Option.some.inj heq
        split
        · rename_i x2 x3 p pc hp2 hq2
          rw [hnone] at hq2
          exact absurd hq2 (by simp)
        · rfl
  · intro res hres
    obtain ⟨st, p, pc, hr, hp, hq, -⟩ :=
      stratify_some_inv build oracle n data res hres
    obtain ⟨hcne, -⟩ := meanQ_some hq
    have hcorr := (runAll_pct build oracle n data initState st hr).2
    simp only [initState, List.nil_append] at hcorr
    have hfil : data.filter (fun i => succeeded build oracle i n) ≠ [] := by
      intro he
      rw [hcorr, he] at hcne
      exact hcne rfl
    obtain ⟨i, hi⟩ := List.exists_mem_of_ne_nil _ hfil
    have hmem := List.mem_filter.mp hi
    exact ⟨i, hmem.1, by simpa using hmem.2⟩

/-- Witness for C9: on a dataset whose single instance never yields an
unsatisfiable subset, the function raises. -/
theorem stratify_raises_without_success_witness :
    stratify_by_interval exBuild exOracleSat 1 [exInstance20] = none :=
  (stratify_raises_without_success exBuild exOracleSat 1 [exInstance20]).1
    (Or.inr (by decide))

/-- C10: `UNSATVerifier.check` resets the solver's assertions only on the
satisfiable branch: when it returns `False` the assertion set is cleared
before returning, when it returns `True` the asserted formula is left in the
solver, and in both cases the `statistics` attribute is overwritten with the
solver's statistics from this call. -/
theorem check_frame_effect
    (build : List γ → List γ → List φ → String → φ) (oracle : SolverOracle φ σ)
    (st : VerifierState φ σ) (cs acs : List γ) (ascs : List φ) (ph : String) :
    ((UNSATVerifier.check build oracle st cs acs ascs ph).1 = false →
      (UNSATVerifier.check build oracle st cs acs ascs ph).2.assertions = []) ∧
    ((UNSATVerifier.check build oracle st cs acs ascs ph).1 = true →
      (UNSATVerifier.check build oracle st cs acs ascs ph).2.assertions =
        st.assertions ++ [build cs acs ascs ph]) ∧
    (UNSATVerifier.check build oracle st cs acs ascs ph).2.statistics =
      some (oracle.stats (st.assertions ++ [build cs acs ascs ph])) := by
  unfold UNSATVerifier.check UNSATVerifier.reset
  cases h : oracle.isUnsat (st.assertions ++ [build cs acs ascs ph]) <;> simp [h]

/-- Witness for C10 at a concrete call: a solver that always answers
satisfiable on a fresh verifier leaves the assertion list cleared. -/
theorem check_frame_effect_witness :
    (UNSATVerifier.check (γ := Nat) (fun _ _ _ _ => 0)
      ⟨fun _ => false, fun l => l.length⟩ (freshVerifier Nat Nat)
      [1] [1, 2] [0, 0] "p").2.assertions = [] := by
  exact (check_frame_effect (fun _ _ _ _ => 0) ⟨fun _ => false, fun l => l.length⟩
    (freshVerifier Nat Nat) [1] [1, 2] [0, 0] "p").1 rfl

end IntelliSMT
